import Mathlib

/-!
Shallow embedding of the publang embedding-and-retrieval pipeline
(src/publang/search/query.py, src/publang/search/embed.py,
src/publang/utils/oai.py) and proofs of the specified properties.

Embeddings are modelled as rational vectors; the remote embedding
provider and the sklearn distance collaborators are oracles passed as
parameters; remote-call counting is explicit in the return values.
-/

namespace Publang

/-- An embedding vector (sequence of floats, modelled over the rationals). -/
abbrev Emb := List ℚ

/-- Squared Euclidean distance, the value computed by the external
collaborator sklearn euclidean_distances with squared=True
(query.py line 36, embed.py line 87). -/
def sqEuclidean (a b : Emb) : ℚ :=
  (List.zipWith (fun x y => (x - y) ^ 2) a b).sum

/-- Lexicographic comparison of (number, original index) pairs: the order
used by the Python builtin sorted on the tuples built in _rank_numbers. -/
def pairLe (p q : ℚ × ℕ) : Prop :=
  p.1 < q.1 ∨ (p.1 = q.1 ∧ p.2 ≤ q.2)

instance : DecidableRel pairLe := fun p q => by
  unfold pairLe
  infer_instance

instance : IsTotal (ℚ × ℕ) pairLe := ⟨by
  intro a b
  rcases lt_trichotomy a.1 b.1 with h | h | h
  · exact Or.inl (Or.inl h)
  · rcases Nat.le_total a.2 b.2 with h2 | h2
    · exact Or.inl (Or.inr ⟨h, h2⟩)
    · exact Or.inr (Or.inr ⟨h.symm, h2⟩)
  · exact Or.inr (Or.inl h)⟩

instance : IsTrans (ℚ × ℕ) pairLe := ⟨by
  intro a b c hab hbc
  rcases hab with h | ⟨h, h2⟩ <;> rcases hbc with h3 | ⟨h3, h4⟩
  · exact Or.inl (h.trans h3)
  · exact Or.inl (h3 ▸ h)
  · exact Or.inl (h ▸ h3)
  · exact Or.inr ⟨h.trans h3, h2.trans h4⟩⟩

/-- The list sorted((num, i) for i, num in enumerate(numbers)) built inside
_rank_numbers: the builtin sorted is a stable sort under the lexicographic
tuple order, modelled by the stable insertion sort under pairLe. -/
def sortedPairs (numbers : List ℚ) : List (ℚ × ℕ) :=
  List.insertionSort pairLe (numbers.enum.map (fun p => (p.2, p.1)))

/-- The write loop of _rank_numbers: each assignment (index, rank) executes
ranks[index] = rank on the accumulator list. -/
def setFold (as : List (ℕ × ℕ)) (init : List ℕ) : List ℕ :=
  as.foldl (fun acc q => acc.set q.1 q.2) init

/-- The function _rank_numbers (query.py lines 10 to 23, identical copy in
embed.py lines 64 to 77): sort the (number, index) pairs, then write rank r
into position index for the r-th pair of the sorted list, starting from a
list of zeros of the input length. -/
def rankNumbers (numbers : List ℚ) : List ℕ :=
  setFold ((sortedPairs numbers).enum.map (fun p => (p.2.2, p.1)))
    (List.replicate numbers.length 0)

/-- Fuel-indexed recursion computing keys in first-occurrence order: the
head key is kept and all its later duplicates are dropped before recursing.
The fuel only bounds the recursion depth; with fuel at least the list
length it never runs out. -/
def firstOccKeysFuel : ℕ → List ℕ → List ℕ
  | _, [] => []
  | 0, _ :: _ => []
  | fuel + 1, k :: ks => k :: firstOccKeysFuel fuel (ks.filter (fun x => x != k))

/-- Keys in order of first occurrence: the group-key order produced by
pandas groupby with sort=False. -/
def firstOccKeys (l : List ℕ) : List ℕ :=
  firstOccKeysFuel l.length l

/-- One row of the embedded-chunk table handed to get_chunk_query_distance.
The embedding is an Option because fail-soft mode stores None. -/
structure ChunkRow where
  pmcid : ℕ
  content : String
  startChar : ℕ
  endChar : ℕ
  embedding : Option Emb
deriving DecidableEq, Repr

/-- One row of the ranked result table built by get_chunk_query_distance. -/
structure RankedRow where
  pmcid : ℕ
  content : String
  startChar : ℕ
  endChar : ℕ
  distance : ℚ
  rank : ℕ
deriving DecidableEq, Repr

/-- The grouping embeddings_df.groupby(pmcid, sort=False): one group per
distinct pmcid in first-occurrence order, each group holding all rows with
that pmcid in their original relative order. -/
def groupByPmcid (rows : List ChunkRow) : List (List ChunkRow) :=
  (firstOccKeys (rows.map ChunkRow.pmcid)).map
    (fun k => rows.filter (fun r => r.pmcid == k))

/-- Fuel-indexed recursion deciding contiguity: skip the leading block of
the head pmcid, require that this pmcid never reappears afterwards, and
recurse on the remainder. Fuel at least the list length never runs out. -/
def contiguousRowsFuel : ℕ → List ChunkRow → Bool
  | _, [] => true
  | 0, _ :: _ => true
  | fuel + 1, r :: rest =>
      (rest.dropWhile (fun x => x.pmcid == r.pmcid)).all
        (fun x => x.pmcid != r.pmcid) &&
      contiguousRowsFuel fuel (rest.dropWhile (fun x => x.pmcid == r.pmcid))

/-- Decides whether all rows sharing a pmcid are contiguous in the table. -/
def contiguousRows (l : List ChunkRow) : Bool :=
  contiguousRowsFuel l.length l

/-- Conversion of a column of optional embeddings into a dense matrix:
sklearn raises a ValueError when any entry is None, which the Except
callers below surface as invalidEmbeddingInput. -/
def allSome : List (Option Emb) → Option (List Emb)
  | [] => some []
  | none :: _ => none
  | some a :: rest => (allSome rest).map (fun l => a :: l)

/-- Python-level failures reachable in the query engines. -/
inductive QueryError where
  /-- sklearn ValueError: the embedding matrix contains a None entry. -/
  | invalidEmbeddingInput
  /-- Python NameError at query.py line 44: distances was never assigned
  because distance_metric matched neither euclidean nor cosine. -/
  | unboundLocalDistances
  /-- Python ValueError: zip of zero results cannot unpack into two names
  (the table had no groups). -/
  | emptyUnpack
deriving DecidableEq, Repr

instance {ε α : Type} [DecidableEq ε] [DecidableEq α] : DecidableEq (Except ε α)
  | .error a, .error b =>
      if h : a = b then .isTrue (by rw [h])
      else .isFalse (fun hc => by cases hc; exact h rfl)
  | .error _, .ok _ => .isFalse (fun hc => Except.noConfusion hc)
  | .ok _, .error _ => .isFalse (fun hc => Except.noConfusion hc)
  | .ok a, .ok b =>
      if h : a = b then .isTrue (by rw [h])
      else .isFalse (fun hc => by cases hc; exact h rfl)

/-- Propagation of per-group failures through the zip of the collected
results: the first error in submission order is the one raised. -/
def exceptSeq {α : Type} : List (Except QueryError α) → Except QueryError (List α)
  | [] => .ok []
  | .error e :: _ => .error e
  | .ok v :: rest => (exceptSeq rest).map (fun l => v :: l)

/-- The function query_embeddings of embed.py (lines 80 to 91): distances of
each chunk embedding to an already-computed query embedding, squared
Euclidean only, plus the ranks from _rank_numbers. -/
def queryEmbeddingsEmbed (embeddings : List (Option Emb)) (queryEmbedding : Emb) :
    Except QueryError (List ℚ × List ℕ) :=
  match allSome embeddings with
  | none => .error .invalidEmbeddingInput
  | some embs =>
      let distances := embs.map (fun e => sqEuclidean e queryEmbedding)
      .ok (distances, rankNumbers distances)

/-- The function query_embeddings of query.py (lines 26 to 44). It calls the
embedding client on the query string itself (line 33) before dispatching on
the metric; euclid and cosd are the sklearn distance collaborators. The
second component counts calls to the embedding client. -/
def queryEmbeddingsQuery (euclid cosd : Emb → Emb → ℚ) (embedOracle : String → Emb)
    (embeddings : List (Option Emb)) (query : String) (metric : String) :
    Except QueryError (List ℚ × List ℕ) × ℕ :=
  let qe := embedOracle query
  if metric == "euclidean" then
    match allSome embeddings with
    | none => (.error .invalidEmbeddingInput, 1)
    | some embs =>
        let distances := embs.map (fun e => euclid e qe)
        (.ok (distances, rankNumbers distances), 1)
  else if metric == "cosine" then
    match allSome embeddings with
    | none => (.error .invalidEmbeddingInput, 1)
    | some embs =>
        let distances := embs.map (fun e => cosd e qe)
        (.ok (distances, rankNumbers distances), 1)
  else (.error .unboundLocalDistances, 1)

/-- Positional assignment of the concatenated distance and rank columns onto
the metadata copy of the original table rows (the two column assignments in
get_chunk_query_distance). -/
def assembleRows (table : List ChunkRow) (distances : List ℚ) (ranks : List ℕ) :
    List RankedRow :=
  List.zipWith
    (fun (r : ChunkRow) (p : ℚ × ℕ) =>
      { pmcid := r.pmcid, content := r.content, startChar := r.startChar,
        endChar := r.endChar, distance := p.1, rank := p.2 })
    table (distances.zip ranks)

/-- Comparison used by the final sort_values on the distance column. -/
def distLe (a b : RankedRow) : Prop :=
  a.distance ≤ b.distance

instance : DecidableRel distLe := fun a b => by
  unfold distLe
  infer_instance

instance : IsTotal RankedRow distLe :=
  ⟨fun a b => le_total a.distance b.distance⟩

instance : IsTrans RankedRow distLe :=
  ⟨fun _ _ _ hab hbc => le_trans hab hbc⟩

/-- The pandas sort_values(distance) of embed.py line 111, modelled as a
sort by the distance column. -/
def sortByDistance (rows : List RankedRow) : List RankedRow :=
  List.insertionSort distLe rows

/-- The function get_chunk_query_distance of embed.py (lines 94 to 113):
embed the query once, rank each pmcid group, assign columns positionally,
then sort the whole table by distance. The second component counts calls to
the embedding client. -/
def getChunkQueryDistanceEmbed (embedOracle : String → Emb)
    (table : List ChunkRow) (query : String) :
    Except QueryError (List RankedRow) × ℕ :=
  let qe := embedOracle query
  let groups := groupByPmcid table
  if groups.isEmpty then (.error .emptyUnpack, 1) else
  match exceptSeq (groups.map (fun g => queryEmbeddingsEmbed (g.map ChunkRow.embedding) qe)) with
  | .error e => (.error e, 1)
  | .ok pairs =>
      let distances := (pairs.map Prod.fst).flatten
      let ranks := (pairs.map Prod.snd).flatten
      (.ok (sortByDistance (assembleRows table distances ranks)), 1)

/-- The function get_chunk_query_distance of query.py (lines 47 to 66): one
query_embeddings task is submitted per pmcid group (each task embeds the
query string again, with the default euclidean metric), results are gathered
in submission order, columns are assigned positionally, and the table is
returned without any global sort. The second component counts calls to the
embedding client across all submitted tasks. -/
def getChunkQueryDistanceQuery (euclid cosd : Emb → Emb → ℚ)
    (embedOracle : String → Emb) (table : List ChunkRow) (query : String) :
    Except QueryError (List RankedRow) × ℕ :=
  let groups := groupByPmcid table
  if groups.isEmpty then (.error .emptyUnpack, 0) else
  let tasks := groups.map (fun g =>
    queryEmbeddingsQuery euclid cosd embedOracle (g.map ChunkRow.embedding) query "euclidean")
  let calls := (tasks.map Prod.snd).sum
  match exceptSeq (tasks.map Prod.fst) with
  | .error e => (.error e, calls)
  | .ok pairs =>
      let distances := (pairs.map Prod.fst).flatten
      let ranks := (pairs.map Prod.snd).flatten
      (.ok (assembleRows table distances ranks), calls)

/-- The exception classes named in oai.py: the four types listed in
retry_if_exception_type (lines 25 to 32) are the transient ones; other
stands for every remaining exception (auth, bad request, content policy). -/
inductive ApiError where
  | apiError
  | apiConnectionError
  | rateLimitError
  | timeout
  | other
deriving DecidableEq, Repr

/-- The transient classification of oai.py lines 25 to 32. -/
def isTransient : ApiError → Bool
  | .apiError => true
  | .apiConnectionError => true
  | .rateLimitError => true
  | .timeout => true
  | .other => false

/-- The tenacity retry loop configured in oai.py lines 24 to 35: a call is
modelled as a function from the zero-based attempt number to its outcome;
remaining counts attempts still allowed and made counts attempts performed.
On the final allowed attempt the outcome propagates as is; earlier attempts
retry only on transient errors. Returns the outcome and the attempt count. -/
def runRetry (call : ℕ → Except ApiError α) : ℕ → ℕ → Except ApiError α × ℕ
  | 0, made => (call made, made + 1)
  | 1, made => (call made, made + 1)
  | r + 2, made =>
      match call made with
      | .ok v => (.ok v, made + 1)
      | .error e =>
          if isTransient e then runRetry call (r + 1) (made + 1)
          else (.error e, made + 1)

/-- The function reexecutor of oai.py (lines 17 to 37): wrapped by the
tenacity retry decorator only when the configured attempt ceiling exceeds
one, otherwise a plain pass-through call. -/
def reexecutor (N : ℕ) (call : ℕ → Except ApiError α) : Except ApiError α × ℕ :=
  if N > 1 then runRetry call N 0 else (call 0, 1)

/-- The function get_openai_embedding of oai.py (lines 119 to 141):
warnOnFailure mirrors the PUBLANG_WARN_ON_FAILURE environment toggle. The
result pairs the outcome (none is the Python None sentinel) with a flag
recording whether a warning was emitted and the number of provider calls. -/
def getOpenaiEmbedding (warnOnFailure : Bool) (N : ℕ)
    (call : ℕ → Except ApiError Emb) :
    Except ApiError (Option Emb) × Bool × ℕ :=
  match reexecutor N call with
  | (.ok v, n) => (.ok (some v), false, n)
  | (.error e, n) =>
      if warnOnFailure then (.ok none, true, n) else (.error e, false, n)

/-- One input document of embed_pmc_articles. -/
structure Article where
  pmcid : ℕ
  text : String
deriving DecidableEq, Repr

/-- One span produced by the external chunker split_pmc_document. -/
structure ChunkSpan where
  content : String
  startChar : ℕ
  endChar : ℕ
deriving DecidableEq, Repr

/-- The inner worker _split_embed of embed_pmc_articles (embed.py lines 34
to 49): chunk one article and embed every chunk, tagging each chunk with the
article pmcid. An empty chunk list contributes zero rows. -/
def splitEmbedArticle (splitDoc : String → List ChunkSpan)
    (embedText : String → Option Emb) (article : Article) : List ChunkRow :=
  (splitDoc article.text).map (fun c =>
    { pmcid := article.pmcid, content := c.content, startChar := c.startChar,
      endChar := c.endChar, embedding := embedText c.content })

/-- An execution log of the thread pool: tasks were submitted in list order,
and order gives the sequence of submission indices in the order the workers
happened to finish them. Each finished task records its own result. -/
def completionLog (tasks : List (List ChunkRow)) (order : List ℕ) :
    List (ℕ × List ChunkRow) :=
  order.filterMap (fun i => (tasks.get? i).map (fun v => (i, v)))

/-- The gather loop of embed.py lines 57 to 59: futures are read back in
submission order, never in completion order. -/
def gatherInSubmissionOrder (n : ℕ) (log : List (ℕ × List ChunkRow)) :
    List (List ChunkRow) :=
  (List.range n).map (fun i => (log.lookup i).getD [])

/-- The function embed_pmc_articles of embed.py (lines 12 to 61): submit one
task per article, let the pool finish them in an arbitrary order, gather the
per-article chunk lists in submission order and concatenate. -/
def embedPmcArticles (splitDoc : String → List ChunkSpan)
    (embedText : String → Option Emb) (articles : List Article)
    (order : List ℕ) : List ChunkRow :=
  let tasks := articles.map (splitEmbedArticle splitDoc embedText)
  (gatherInSubmissionOrder tasks.length (completionLog tasks order)).flatten

/-- Modelled from the spec: per-group assembly in which each row of a group
is zipped with the distance of its own embedding and with the group-local
rank at its own in-group position. -/
def assembleGroupDirect (g : List ChunkRow) (qe : Emb) : List RankedRow :=
  let d := g.map (fun r => sqEuclidean (r.embedding.getD []) qe)
  assembleRows g d (rankNumbers d)

/-- Modelled from the spec: the row-correct result table, every group
assembled from its own rows and the groups concatenated in first-occurrence
order. -/
def assembleDirect (table : List ChunkRow) (qe : Emb) : List RankedRow :=
  ((groupByPmcid table).map (fun g => assembleGroupDirect g qe)).flatten

/-- A chunker oracle returning the whole text as one span, used at
concrete inputs. -/
def splitOneW : String → List ChunkSpan :=
  fun t => [⟨t, 0, t.length⟩]

/-- A per-chunk embedding oracle used at concrete inputs. -/
def embedLenW : String → Option Emb :=
  fun s => some [(s.length : ℚ)]

/-- Two concrete articles for the pipeline. -/
def articlesW : List Article := [⟨1, "xx"⟩, ⟨2, "yyy"⟩]

/-- A call that hits a rate limit on its first attempt and succeeds on the
second, used to exercise the retry bound at a concrete input. -/
def retryCallW : ℕ → Except ApiError ℕ :=
  fun i => if i < 1 then .error .rateLimitError else .ok 7

/-- A call that always fails with a non-transient provider error, used to
exercise the failure modes of the embedding client at a concrete input. -/
def failingCallW : ℕ → Except ApiError Emb :=
  fun _ => .error .other

/-- Sample rows and oracles used to exercise the engines at concrete
inputs: two chunks of document 1 and one chunk of document 2. -/
def rowA : ChunkRow := ⟨1, "a", 0, 1, some [0]⟩

def rowB : ChunkRow := ⟨1, "b", 1, 2, some [2]⟩

def rowC : ChunkRow := ⟨2, "c", 0, 1, some [1]⟩

def rowNone : ChunkRow := ⟨3, "d", 0, 1, none⟩

def sampleTable : List ChunkRow := [rowA, rowB, rowC]

def zeroOracle : String → Emb := fun _ => [0]

def cosZero : Emb → Emb → ℚ := fun _ _ => 0

/-- The distance column of a query result, empty when the query raised. -/
def resultDistances : Except QueryError (List RankedRow) → List ℚ
  | .ok rows => rows.map RankedRow.distance
  | .error _ => []

theorem runRetry_succeeds {α : Type} (call : ℕ → Except ApiError α) (v : α) :
    ∀ (k remaining made : ℕ), k < remaining →
      (∀ i, i < k → ∃ e, call (made + i) = .error e ∧ isTransient e = true) →
      call (made + k) = .ok v →
      runRetry call remaining made = (.ok v, made + k + 1) := by
  intro k
  induction k with
  | zero =>
      intro remaining made hlt hfail hsucc
      rw [Nat.add_zero] at hsucc
      match remaining, hlt with
      | 1, _ => simp [runRetry, hsucc]
      | r + 2, _ => simp [runRetry, hsucc]
  | succ j ih =>
      intro remaining made hlt hfail hsucc
      obtain ⟨r, rfl⟩ : ∃ r, remaining = r + 2 := ⟨remaining - 2, by omega⟩
      obtain ⟨e, he, ht⟩ := hfail 0 (by omega)
      rw [Nat.add_zero] at he
      have step : runRetry call (r + 2) made = runRetry call (r + 1) (made + 1) := by
        simp [runRetry, he, ht]
      rw [step]
      have hfail2 : ∀ i, i < j → ∃ e2, call (made + 1 + i) = .error e2 ∧ isTransient e2 = true := by
        intro i hi
        have h2 := hfail (i + 1) (by omega)
        rwa [show made + (i + 1) = made + 1 + i by omega] at h2
      have hsucc2 : call (made + 1 + j) = .ok v := by
        rwa [show made + (j + 1) = made + 1 + j by omega] at hsucc
      have := ih (r + 1) (made + 1) (by omega) hfail2 hsucc2
      rw [this]
      congr 1
      omega

/-- C5. Retry bound: a zero-argument remote call that fails with a
transient error on exactly its first k attempts, with k below the attempt
ceiling N, and succeeds on its next attempt, is invoked exactly k + 1 times
by the retry policy, and the success value is returned to the caller. -/
theorem reexecutor_retry_bound {α : Type} (N k : ℕ) (call : ℕ → Except ApiError α)
    (v : α) (hk : k < N)
    (hfail : ∀ i, i < k → ∃ e, call i = .error e ∧ isTransient e = true)
    (hsucc : call k = .ok v) :
    reexecutor N call = (.ok v, k + 1) := by
  unfold reexecutor
  by_cases h : N > 1
  · simp only [h, if_true]
    have := runRetry_succeeds call v k N 0 hk
      (fun i hi => by simpa using hfail i hi) (by simpa using hsucc)
    simpa using this
  · have hN : N = 1 := by omega
    have hk0 : k = 0 := by omega
    subst hN hk0
    simp [hsucc]

/-- C5 witness: a call that rate-limits once and then succeeds is invoked
twice under the default ceiling of 50 and its success value is returned. -/
theorem reexecutor_retry_bound_witness :
    1 < 50 ∧ reexecutor 50 retryCallW = (.ok 7, 2) := by
  refine ⟨by decide, reexecutor_retry_bound 50 1 retryCallW 7 (by decide) ?_ (by rfl)⟩
  intro i hi
  have h0 : i = 0 := by omega
  subst h0
  exact ⟨.rateLimitError, rfl, rfl⟩

/-- C6. When the wrapped provider call comes back from the retry policy
with an exception, the embedding client in fail-hard mode (the default,
warn flag off) propagates that exception without warning, and in fail-soft
mode returns the None sentinel and emits a warning instead of raising. -/
theorem getOpenaiEmbedding_failure_modes (N : ℕ) (call : ℕ → Except ApiError Emb)
    (e : ApiError) (n : ℕ) (h : reexecutor N call = (.error e, n)) :
    getOpenaiEmbedding false N call = (.error e, false, n) ∧
    getOpenaiEmbedding true N call = (.ok none, true, n) := by
  constructor <;> simp [getOpenaiEmbedding, h]

/-- C6 witness: a permanently failing call under a pass-through ceiling
propagates in fail-hard mode and yields the sentinel in fail-soft mode. -/
theorem getOpenaiEmbedding_failure_modes_witness :
    reexecutor 1 failingCallW = (.error .other, 1) ∧
    getOpenaiEmbedding false 1 failingCallW = (.error .other, false, 1) ∧
    getOpenaiEmbedding true 1 failingCallW = (.ok none, true, 1) := by
  refine ⟨rfl, ?_⟩
  have := getOpenaiEmbedding_failure_modes 1 failingCallW .other 1 rfl
  exact ⟨this.1, this.2⟩

theorem queryEmbeddingsQuery_count (euclid cosd : Emb → Emb → ℚ)
    (embedOracle : String → Emb) (embeddings : List (Option Emb))
    (query metric : String) :
    (queryEmbeddingsQuery euclid cosd embedOracle embeddings query metric).2 = 1 := by
  unfold queryEmbeddingsQuery
  repeat' split
  all_goals rfl

/-- C2 amended: the embed.py engine embeds the query with exactly one call
to the embedding client per invocation, for any number of groups; the
query.py engine instead issues one embedding-client call per document
group. -/
theorem query_embedding_call_counts (euclid cosd : Emb → Emb → ℚ)
    (embedOracle : String → Emb) (table : List ChunkRow) (query : String) :
    (getChunkQueryDistanceEmbed embedOracle table query).2 = 1 ∧
    (getChunkQueryDistanceQuery euclid cosd embedOracle table query).2 =
      (groupByPmcid table).length := by
  constructor
  · unfold getChunkQueryDistanceEmbed
    simp only []
    split
    · rfl
    · split <;> rfl
  · unfold getChunkQueryDistanceQuery
    simp only []
    split
    · rename_i h
      rw [List.isEmpty_iff] at h
      rw [h]
      rfl
    · have hmap :
          ((groupByPmcid table).map (fun g =>
            queryEmbeddingsQuery euclid cosd embedOracle (g.map ChunkRow.embedding)
              query "euclidean")).map Prod.snd =
          (groupByPmcid table).map (fun _ => 1) := by
        rw [List.map_map]
        exact List.map_congr_left (fun g _ =>
          queryEmbeddingsQuery_count euclid cosd embedOracle
            (g.map ChunkRow.embedding) query "euclidean")
      have hsum :
          (((groupByPmcid table).map (fun g =>
            queryEmbeddingsQuery euclid cosd embedOracle (g.map ChunkRow.embedding)
              query "euclidean")).map Prod.snd).sum = (groupByPmcid table).length := by
        rw [hmap]
        simp
      split <;> exact hsum

/-- C2 counterexample: on a table with two document groups the query.py
engine calls the embedding client twice in one invocation, not once. -/
theorem query_embedding_two_calls_cex :
    (getChunkQueryDistanceQuery sqEuclidean cosZero zeroOracle sampleTable "q").2 = 2 ∧
    (groupByPmcid sampleTable).length = 2 ∧
    (getChunkQueryDistanceQuery sqEuclidean cosZero zeroOracle sampleTable "q").2 ≠ 1 := by
  exact ⟨by decide, by decide, by decide⟩

/-- C8. On a metric that is neither euclidean nor cosine, query_embeddings
of query.py still issues its remote embedding call (count 1) and then fails
with the unbound-local error from the missing distances assignment, instead
of failing fast before the remote call. -/
theorem queryEmbeddingsQuery_invalid_metric (euclid cosd : Emb → Emb → ℚ)
    (embedOracle : String → Emb) (embeddings : List (Option Emb))
    (query metric : String) (h1 : metric ≠ "euclidean") (h2 : metric ≠ "cosine") :
    queryEmbeddingsQuery euclid cosd embedOracle embeddings query metric =
      (.error .unboundLocalDistances, 1) := by
  unfold queryEmbeddingsQuery
  simp [h1, h2]

/-- C8 witness: the metric manhattan is invalid, the remote embedding call
is nevertheless issued, and the invocation ends in the unbound-local
error. -/
theorem queryEmbeddingsQuery_invalid_metric_witness :
    ("manhattan" ≠ "euclidean" ∧ "manhattan" ≠ "cosine") ∧
    queryEmbeddingsQuery sqEuclidean cosZero zeroOracle [some [0]] "q" "manhattan" =
      (.error .unboundLocalDistances, 1) := by
  refine ⟨⟨by decide, by decide⟩, ?_⟩
  exact queryEmbeddingsQuery_invalid_metric sqEuclidean cosZero zeroOracle
    [some [0]] "q" "manhattan" (by decide) (by decide)

theorem allSome_of_mem_none (l : List (Option Emb)) (h : none ∈ l) :
    allSome l = none := by
  induction l with
  | nil => cases h
  | cons a rest ih =>
      cases a with
      | none => rfl
      | some v =>
          have : none ∈ rest := by
            rcases List.mem_cons.mp h with h2 | h2
            · cases h2
            · exact h2
          simp [allSome, ih this]

theorem mem_firstOccKeysFuel (x : ℕ) :
    ∀ (fuel : ℕ) (l : List ℕ), l.length ≤ fuel → x ∈ l →
      x ∈ firstOccKeysFuel fuel l := by
  intro fuel
  induction fuel with
  | zero =>
      intro l hlen hx
      cases l with
      | nil => cases hx
      | cons k ks => simp at hlen
  | succ f ih =>
      intro l hlen hx
      cases l with
      | nil => cases hx
      | cons k ks =>
          by_cases hxk : x = k
          · subst hxk
            exact List.mem_cons_self _ _
          · have hx2 : x ∈ ks := by
              rcases List.mem_cons.mp hx with h2 | h2
              · exact absurd h2 hxk
              · exact h2
            have hxf : x ∈ ks.filter (fun y => y != k) := by
              rw [List.mem_filter]
              exact ⟨hx2, by simpa using hxk⟩
            have hlen2 : (ks.filter (fun y => y != k)).length ≤ f := by
              have := List.length_filter_le (fun y => y != k) ks
              simp at hlen
              omega
            exact List.mem_cons_of_mem _ (ih _ hlen2 hxf)

theorem mem_firstOccKeys (x : ℕ) (l : List ℕ) (h : x ∈ l) :
    x ∈ firstOccKeys l :=
  mem_firstOccKeysFuel x l.length l le_rfl h

/-- Every row belongs to the group carrying its own pmcid. -/
theorem mem_groupByPmcid (r : ChunkRow) (table : List ChunkRow) (h : r ∈ table) :
    ∃ g ∈ groupByPmcid table, r ∈ g := by
  refine ⟨table.filter (fun x => x.pmcid == r.pmcid), ?_, ?_⟩
  · unfold groupByPmcid
    exact List.mem_map.mpr ⟨r.pmcid,
      mem_firstOccKeys r.pmcid _ (List.mem_map.mpr ⟨r, h, rfl⟩), rfl⟩
  · rw [List.mem_filter]
    exact ⟨h, by simp⟩

theorem exceptSeq_eq_error {α : Type} (l : List (Except QueryError α))
    (hall : ∀ x ∈ l, x = .error .invalidEmbeddingInput ∨ ∃ v, x = .ok v)
    (hone : ∃ x ∈ l, x = .error QueryError.invalidEmbeddingInput) :
    exceptSeq l = .error .invalidEmbeddingInput := by
  induction l with
  | nil => obtain ⟨x, hx, _⟩ := hone; cases hx
  | cons a rest ih =>
      rcases hall a (List.mem_cons_self _ _) with ha | ⟨v, ha⟩
      · subst ha; rfl
      · subst ha
        have hone2 : ∃ x ∈ rest, x = .error QueryError.invalidEmbeddingInput := by
          obtain ⟨x, hx, hxe⟩ := hone
          rcases List.mem_cons.mp hx with h2 | h2
          · rw [h2] at hxe; cases hxe
          · exact ⟨x, h2, hxe⟩
        have := ih (fun x hx => hall x (List.mem_cons_of_mem _ hx)) hone2
        simp [exceptSeq, this, Except.map]

theorem groupByPmcid_ne_nil (r : ChunkRow) (table : List ChunkRow)
    (h : r ∈ table) : groupByPmcid table ≠ [] := by
  intro hnil
  obtain ⟨g, hg, _⟩ := mem_groupByPmcid r table h
  rw [hnil] at hg
  cases hg

/-- C4. A table containing a chunk whose embedding is the fail-soft None
sentinel makes both query engines fail with the sklearn invalid-input
error at distance-computation time: the chunk is neither excluded from
ranking nor surfaced separately. -/
theorem queryEngine_none_embedding_raises (euclid cosd : Emb → Emb → ℚ)
    (embedOracle : String → Emb) (table : List ChunkRow) (query : String)
    (r : ChunkRow) (hr : r ∈ table) (hnone : r.embedding = none) :
    (getChunkQueryDistanceEmbed embedOracle table query).1 =
      .error .invalidEmbeddingInput ∧
    (getChunkQueryDistanceQuery euclid cosd embedOracle table query).1 =
      .error .invalidEmbeddingInput := by
  obtain ⟨g, hg, hrg⟩ := mem_groupByPmcid r table hr
  have hgnone : none ∈ g.map ChunkRow.embedding := by
    exact List.mem_map.mpr ⟨r, hrg, hnone⟩
  have hne : ¬(groupByPmcid table).isEmpty = true := by
    rw [List.isEmpty_iff]
    exact groupByPmcid_ne_nil r table hr
  constructor
  · have herr : exceptSeq ((groupByPmcid table).map (fun g2 =>
        queryEmbeddingsEmbed (g2.map ChunkRow.embedding) (embedOracle query))) =
        .error .invalidEmbeddingInput := by
      apply exceptSeq_eq_error
      · intro x hx
        obtain ⟨g2, _, hx2⟩ := List.mem_map.mp hx
        unfold queryEmbeddingsEmbed at hx2
        rcases hcase : allSome (g2.map ChunkRow.embedding) with _ | embs
        · rw [hcase] at hx2; exact Or.inl hx2.symm
        · rw [hcase] at hx2; exact Or.inr ⟨_, hx2.symm⟩
      · refine ⟨queryEmbeddingsEmbed (g.map ChunkRow.embedding) (embedOracle query),
          List.mem_map.mpr ⟨g, hg, rfl⟩, ?_⟩
        unfold queryEmbeddingsEmbed
        rw [allSome_of_mem_none _ hgnone]
    unfold getChunkQueryDistanceEmbed
    simp [hne, herr]
  · have herr : exceptSeq (((groupByPmcid table).map (fun g2 =>
        queryEmbeddingsQuery euclid cosd embedOracle (g2.map ChunkRow.embedding)
          query "euclidean")).map Prod.fst) =
        .error .invalidEmbeddingInput := by
      apply exceptSeq_eq_error
      · intro x hx
        rw [List.map_map] at hx
        obtain ⟨g2, _, hx2⟩ := List.mem_map.mp hx
        simp only [Function.comp] at hx2
        unfold queryEmbeddingsQuery at hx2
        rcases hcase : allSome (g2.map ChunkRow.embedding) with _ | embs
        · rw [hcase] at hx2
          simp at hx2
          exact Or.inl hx2.symm
        · rw [hcase] at hx2
          simp at hx2
          exact Or.inr ⟨_, hx2.symm⟩
      · rw [List.map_map]
        refine ⟨(queryEmbeddingsQuery euclid cosd embedOracle
          (g.map ChunkRow.embedding) query "euclidean").1,
          List.mem_map.mpr ⟨g, hg, rfl⟩, ?_⟩
        unfold queryEmbeddingsQuery
        rw [allSome_of_mem_none _ hgnone]
        simp
    unfold getChunkQueryDistanceQuery
    rw [List.map_map] at herr
    simp [hne, herr]

/-- C4 witness: a concrete table holding one fail-soft chunk makes both
engines end in the sklearn invalid-input error. -/
theorem queryEngine_none_embedding_raises_witness :
    (rowNone ∈ [rowA, rowNone] ∧ rowNone.embedding = none) ∧
    (getChunkQueryDistanceEmbed zeroOracle [rowA, rowNone] "q").1 =
      .error .invalidEmbeddingInput ∧
    (getChunkQueryDistanceQuery sqEuclidean cosZero zeroOracle [rowA, rowNone] "q").1 =
      .error .invalidEmbeddingInput := by
  refine ⟨⟨by decide, by decide⟩, ?_⟩
  exact queryEngine_none_embedding_raises sqEuclidean cosZero zeroOracle
    [rowA, rowNone] "q" rowNone (by decide) (by decide)

theorem lookup_completionLog (tasks : List (List ChunkRow)) :
    ∀ (order : List ℕ) (i : ℕ), i ∈ order → ∀ (hi : i < tasks.length),
      (completionLog tasks order).lookup i = some (tasks.get ⟨i, hi⟩) := by
  intro order
  induction order with
  | nil => intro i hmem; cases hmem
  | cons j rest ih =>
      intro i hmem hi
      by_cases hij : j = i
      · subst hij
        have hj : tasks[j]? = some (tasks.get ⟨j, hi⟩) := by
          rw [List.getElem?_eq_getElem hi, List.get_eq_getElem]
        simp [completionLog, List.filterMap_cons, hj, List.lookup,
          List.get_eq_getElem]
      · have hmem2 : i ∈ rest := by
          rcases List.mem_cons.mp hmem with h2 | h2
          · exact absurd h2.symm hij
          · exact h2
        rcases hcase : tasks[j]? with _ | v
        · simpa [completionLog, List.filterMap_cons, hcase] using ih i hmem2 hi
        · have hne : (i == j) = false := by simpa using Ne.symm hij
          simpa [completionLog, List.filterMap_cons, hcase, List.lookup, hne]
            using ih i hmem2 hi

theorem gather_completionLog (tasks : List (List ChunkRow)) (order : List ℕ)
    (h : order.Perm (List.range tasks.length)) :
    gatherInSubmissionOrder tasks.length (completionLog tasks order) = tasks := by
  apply List.ext_getElem
  · simp [gatherInSubmissionOrder]
  · intro n h1 h2
    simp only [gatherInSubmissionOrder, List.getElem_map, List.getElem_range]
    have hmem : n ∈ order := h.mem_iff.mpr (List.mem_range.mpr h2)
    rw [lookup_completionLog tasks order n hmem h2]
    rfl

/-- C7. The aggregated output of the embedding pipeline is a pure function
of submission order: for any two completion schedules of the worker pool
(any permutations of the task indices, covering in particular single-worker
and eight-worker executions), the output is the concatenation of each
document's chunk list in document submission order, hence identical. -/
theorem embedPmcArticles_order_invariant (splitDoc : String → List ChunkSpan)
    (embedText : String → Option Emb) (articles : List Article) (o1 o2 : List ℕ)
    (h1 : o1.Perm (List.range articles.length))
    (h2 : o2.Perm (List.range articles.length)) :
    embedPmcArticles splitDoc embedText articles o1 =
      (articles.map (splitEmbedArticle splitDoc embedText)).flatten ∧
    embedPmcArticles splitDoc embedText articles o1 =
      embedPmcArticles splitDoc embedText articles o2 := by
  have len : (articles.map (splitEmbedArticle splitDoc embedText)).length =
      articles.length := List.length_map _ _
  have e1 : embedPmcArticles splitDoc embedText articles o1 =
      (articles.map (splitEmbedArticle splitDoc embedText)).flatten := by
    unfold embedPmcArticles
    simp only []
    rw [gather_completionLog _ o1 (by rwa [len])]
  have e2 : embedPmcArticles splitDoc embedText articles o2 =
      (articles.map (splitEmbedArticle splitDoc embedText)).flatten := by
    unfold embedPmcArticles
    simp only []
    rw [gather_completionLog _ o2 (by rwa [len])]
  exact ⟨e1, e1.trans e2.symm⟩

/-- C7 witness: two concrete schedules, in-order and reversed, produce the
same output, namely the submission-order concatenation. -/
theorem embedPmcArticles_order_invariant_witness :
    ([0, 1].Perm (List.range articlesW.length) ∧
      [1, 0].Perm (List.range articlesW.length)) ∧
    embedPmcArticles splitOneW embedLenW articlesW [0, 1] =
      (articlesW.map (splitEmbedArticle splitOneW embedLenW)).flatten ∧
    embedPmcArticles splitOneW embedLenW articlesW [0, 1] =
      embedPmcArticles splitOneW embedLenW articlesW [1, 0] := by
  refine ⟨⟨by decide, by decide⟩, ?_⟩
  exact embedPmcArticles_order_invariant splitOneW embedLenW articlesW
    [0, 1] [1, 0] (by decide) (by decide)

theorem setFold_length (as : List (ℕ × ℕ)) :
    ∀ init : List ℕ, (setFold as init).length = init.length := by
  induction as with
  | nil => intro init; rfl
  | cons q qs ih =>
      intro init
      show (setFold qs (init.set q.1 q.2)).length = init.length
      rw [ih, List.length_set]

theorem setFold_getElem?_not_mem (i : ℕ) (as : List (ℕ × ℕ)) :
    ∀ init : List ℕ, (∀ q ∈ as, q.1 ≠ i) →
      (setFold as init)[i]? = init[i]? := by
  induction as with
  | nil => intro init _; rfl
  | cons q qs ih =>
      intro init h
      show (setFold qs (init.set q.1 q.2))[i]? = init[i]?
      rw [ih _ (fun p hp => h p (List.mem_cons_of_mem _ hp))]
      exact List.getElem?_set_ne (h q (List.mem_cons_self _ _))

theorem setFold_getElem?_mem (i r : ℕ) (as : List (ℕ × ℕ)) :
    ∀ init : List ℕ, (i, r) ∈ as → (as.map Prod.fst).Nodup →
      i < init.length → (setFold as init)[i]? = some r := by
  induction as with
  | nil => intro init hmem; cases hmem
  | cons q qs ih =>
      intro init hmem hnd hi
      rw [List.map_cons] at hnd
      have hnd2 := List.nodup_cons.mp hnd
      rcases List.mem_cons.mp hmem with hq | hq
      · subst hq
        show (setFold qs (init.set i r))[i]? = some r
        rw [setFold_getElem?_not_mem i qs _ (fun p hp hpi =>
          hnd2.1 (hpi ▸ List.mem_map.mpr ⟨p, hp, rfl⟩))]
        exact List.getElem?_set_self hi
      · have hqi : q.1 ≠ i := fun h =>
          hnd2.1 (h ▸ List.mem_map.mpr ⟨(i, r), hq, rfl⟩)
        show (setFold qs (init.set q.1 q.2))[i]? = some r
        exact ih _ hq hnd2.2 (by rwa [List.length_set])

theorem sortedPairs_perm (numbers : List ℚ) :
    (sortedPairs numbers).Perm (numbers.enum.map (fun p => (p.2, p.1))) :=
  List.perm_insertionSort pairLe _

theorem sortedPairs_length (numbers : List ℚ) :
    (sortedPairs numbers).length = numbers.length := by
  rw [(sortedPairs_perm numbers).length_eq, List.length_map, List.enum_length]

theorem sortedPairs_sorted (numbers : List ℚ) :
    (sortedPairs numbers).Sorted pairLe :=
  List.sorted_insertionSort pairLe _

theorem mem_sortedPairs (numbers : List ℚ) (x : ℚ × ℕ)
    (hx : x ∈ sortedPairs numbers) :
    x.2 < numbers.length ∧ numbers[x.2]? = some x.1 := by
  have hx2 : x ∈ numbers.enum.map (fun p => (p.2, p.1)) :=
    (sortedPairs_perm numbers).mem_iff.mp hx
  obtain ⟨i, hi, hix⟩ := List.mem_iff_getElem.mp hx2
  have hlen : i < numbers.enum.length := by
    simpa using (by simpa using hi : i < numbers.enum.length)
  rw [List.getElem_map, List.getElem_enum] at hix
  have hin : i < numbers.length := by simpa using hlen
  refine ⟨?_, ?_⟩
  · rw [← hix]
    exact hin
  · rw [← hix]
    simp [List.getElem?_eq_getElem hin]

theorem sortedPairs_map_snd_perm (numbers : List ℚ) :
    ((sortedPairs numbers).map Prod.snd).Perm (List.range numbers.length) := by
  have h1 := (sortedPairs_perm numbers).map Prod.snd
  rw [List.map_map] at h1
  have h2 : numbers.enum.map (Prod.snd ∘ fun p => (p.2, p.1)) =
      List.range numbers.length := by
    rw [show (Prod.snd ∘ fun p : ℕ × ℚ => (p.2, p.1)) = Prod.fst from rfl]
    exact List.enum_map_fst numbers
  rwa [h2] at h1

theorem sortedPairs_map_snd_nodup (numbers : List ℚ) :
    ((sortedPairs numbers).map Prod.snd).Nodup :=
  (sortedPairs_map_snd_perm numbers).nodup_iff.mpr (List.nodup_range _)

theorem sortedPairs_snd_inj (numbers : List ℚ) (j k : ℕ)
    (hj : j < (sortedPairs numbers).length) (hk : k < (sortedPairs numbers).length)
    (heq : ((sortedPairs numbers).get ⟨j, hj⟩).2 =
      ((sortedPairs numbers).get ⟨k, hk⟩).2) : j = k := by
  have hnd := sortedPairs_map_snd_nodup numbers
  have hinj := List.nodup_iff_injective_get.mp hnd
  have hjm : j < ((sortedPairs numbers).map Prod.snd).length := by simpa using hj
  have hkm : k < ((sortedPairs numbers).map Prod.snd).length := by simpa using hk
  have hval : ((sortedPairs numbers).map Prod.snd).get ⟨j, hjm⟩ =
      ((sortedPairs numbers).map Prod.snd).get ⟨k, hkm⟩ := by
    simp only [List.get_eq_getElem, List.getElem_map]
    simpa [List.get_eq_getElem] using heq
  simpa using congrArg Fin.val (hinj hval)

theorem rankNumbers_length (numbers : List ℚ) :
    (rankNumbers numbers).length = numbers.length := by
  unfold rankNumbers
  rw [setFold_length, List.length_replicate]

theorem rankNumbers_getElem? (numbers : List ℚ) (j : ℕ)
    (hj : j < (sortedPairs numbers).length) :
    (rankNumbers numbers)[((sortedPairs numbers).get ⟨j, hj⟩).2]? = some j := by
  unfold rankNumbers
  apply setFold_getElem?_mem
  · have hje : j < (sortedPairs numbers).enum.length := by simpa using hj
    refine List.mem_iff_getElem.mpr ⟨j, by simpa using hj, ?_⟩
    rw [List.getElem_map, List.getElem_enum]
    rfl
  · have : ((sortedPairs numbers).enum.map (fun p => (p.2.2, p.1))).map Prod.fst =
        (sortedPairs numbers).map Prod.snd := by
      rw [List.map_map]
      conv_rhs => rw [← List.enum_map_snd (sortedPairs numbers), List.map_map]
      exact List.map_congr_left (fun x _ => rfl)
    rw [this]
    exact sortedPairs_map_snd_nodup numbers
  · rw [List.length_replicate]
    exact (mem_sortedPairs numbers _ (List.get_mem _ j hj)).1

theorem exists_sorted_index (numbers : List ℚ) (a : ℕ) (ha : a < numbers.length) :
    ∃ (j : ℕ) (hj : j < (sortedPairs numbers).length),
      ((sortedPairs numbers).get ⟨j, hj⟩).2 = a := by
  have hmem : a ∈ (sortedPairs numbers).map Prod.snd :=
    (sortedPairs_map_snd_perm numbers).mem_iff.mpr (List.mem_range.mpr ha)
  obtain ⟨x, hx, hxa⟩ := List.mem_map.mp hmem
  obtain ⟨j, hj, hjx⟩ := List.mem_iff_getElem.mp hx
  refine ⟨j, hj, ?_⟩
  rw [List.get_eq_getElem, hjx]
  exact hxa

theorem rankNumbers_get_eq (numbers : List ℚ) (a : ℕ)
    (ha2 : a < (rankNumbers numbers).length) (j : ℕ)
    (hj : j < (sortedPairs numbers).length)
    (hsnd : ((sortedPairs numbers).get ⟨j, hj⟩).2 = a) :
    (rankNumbers numbers).get ⟨a, ha2⟩ = j := by
  have h := rankNumbers_getElem? numbers j hj
  rw [hsnd, List.getElem?_eq_getElem ha2] at h
  simpa using h

theorem sortedPairs_get_pair (numbers : List ℚ) (a : ℕ) (ha : a < numbers.length)
    (j : ℕ) (hj : j < (sortedPairs numbers).length)
    (hsnd : ((sortedPairs numbers).get ⟨j, hj⟩).2 = a) :
    (sortedPairs numbers).get ⟨j, hj⟩ = (numbers.get ⟨a, ha⟩, a) := by
  have hm := mem_sortedPairs numbers _ (List.get_mem _ j hj)
  rw [hsnd] at hm
  have h2 := hm.2
  rw [List.getElem?_eq_getElem ha] at h2
  have : numbers.get ⟨a, ha⟩ = ((sortedPairs numbers).get ⟨j, hj⟩).1 := by
    simpa using h2
  exact Prod.ext this.symm hsnd

theorem sortedPairs_rel_of_lt (numbers : List ℚ) (j k : ℕ)
    (hj : j < (sortedPairs numbers).length) (hk : k < (sortedPairs numbers).length)
    (hlt : j < k) :
    pairLe ((sortedPairs numbers).get ⟨j, hj⟩) ((sortedPairs numbers).get ⟨k, hk⟩) :=
  List.pairwise_iff_get.mp (sortedPairs_sorted numbers) ⟨j, hj⟩ ⟨k, hk⟩ hlt

/-- C1. Within one group the computed ranks realise the strict
lexicographic order on (distance, original index): rank(a) is below
rank(b) exactly when the distance at a is smaller, or the distances are
exactly equal and a precedes b; in particular the position holding rank 0
has a distance below or equal to every other position. -/
theorem rankNumbers_total_order (numbers : List ℚ) (a b : ℕ)
    (ha : a < numbers.length) (hb : b < numbers.length)
    (ha2 : a < (rankNumbers numbers).length)
    (hb2 : b < (rankNumbers numbers).length) :
    ((rankNumbers numbers).get ⟨a, ha2⟩ < (rankNumbers numbers).get ⟨b, hb2⟩ ↔
      (numbers.get ⟨a, ha⟩ < numbers.get ⟨b, hb⟩ ∨
        (numbers.get ⟨a, ha⟩ = numbers.get ⟨b, hb⟩ ∧ a < b))) ∧
    ((rankNumbers numbers).get ⟨a, ha2⟩ = 0 →
      numbers.get ⟨a, ha⟩ ≤ numbers.get ⟨b, hb⟩) := by
  obtain ⟨ja, hja, hsa⟩ := exists_sorted_index numbers a ha
  obtain ⟨jb, hjb, hsb⟩ := exists_sorted_index numbers b hb
  have hra := rankNumbers_get_eq numbers a ha2 ja hja hsa
  have hrb := rankNumbers_get_eq numbers b hb2 jb hjb hsb
  have hpa := sortedPairs_get_pair numbers a ha ja hja hsa
  have hpb := sortedPairs_get_pair numbers b hb jb hjb hsb
  have hforward : ja < jb →
      numbers.get ⟨a, ha⟩ < numbers.get ⟨b, hb⟩ ∨
        (numbers.get ⟨a, ha⟩ = numbers.get ⟨b, hb⟩ ∧ a < b) := by
    intro hlt
    have hle := sortedPairs_rel_of_lt numbers ja jb hja hjb hlt
    rw [hpa, hpb] at hle
    rcases hle with h | ⟨h, h2⟩
    · exact Or.inl h
    · refine Or.inr ⟨h, lt_of_le_of_ne h2 ?_⟩
      intro hab
      have : ja = jb := sortedPairs_snd_inj numbers ja jb hja hjb
        (by rw [hsa, hsb, hab])
      omega
  have hbackward : jb < ja →
      numbers.get ⟨b, hb⟩ < numbers.get ⟨a, ha⟩ ∨
        (numbers.get ⟨b, hb⟩ = numbers.get ⟨a, ha⟩ ∧ b < a) := by
    intro hlt
    have hle := sortedPairs_rel_of_lt numbers jb ja hjb hja hlt
    rw [hpa, hpb] at hle
    rcases hle with h | ⟨h, h2⟩
    · exact Or.inl h
    · refine Or.inr ⟨h, lt_of_le_of_ne h2 ?_⟩
      intro hab
      have : ja = jb := sortedPairs_snd_inj numbers ja jb hja hjb
        (by rw [hsa, hsb, hab])
      omega
  constructor
  · rw [hra, hrb]
    constructor
    · exact hforward
    · intro hrhs
      rcases Nat.lt_trichotomy ja jb with h | h | h
      · exact h
      · exfalso
        have hab : a = b := by
          rw [← hsa, ← hsb]
          exact congrArg (fun t => ((sortedPairs numbers).get t).2) (Fin.ext h)
        subst hab
        rcases hrhs with h2 | ⟨_, h2⟩
        · exact lt_irrefl _ h2
        · omega
      · exfalso
        rcases hrhs with h2 | ⟨h2, h3⟩ <;> rcases hbackward h with h4 | ⟨h4, h5⟩
        · exact lt_asymm h2 h4
        · rw [h4] at h2
          exact lt_irrefl _ h2
        · rw [h2] at h4
          exact lt_irrefl _ h4
        · omega
  · intro h0
    rw [hra] at h0
    by_cases hab : a = b
    · subst hab
      exact le_refl _
    · have hjab : ja ≠ jb := by
        intro h
        apply hab
        rw [← hsa, ← hsb]
        exact congrArg (fun t => ((sortedPairs numbers).get t).2) (Fin.ext h)
      have hlt : ja < jb := by omega
      rcases hforward hlt with h | ⟨h, _⟩
      · exact le_of_lt h
      · exact le_of_eq h

/-- C1 witness: on the distances (9, 1, 1, 9) position 1 gets rank 0,
position 2 the tied next rank, and rank 0 is a distance minimum. -/
theorem rankNumbers_total_order_witness :
    (1 < ([9, 1, 1, 9] : List ℚ).length ∧ 2 < ([9, 1, 1, 9] : List ℚ).length ∧
      1 < (rankNumbers [9, 1, 1, 9]).length ∧ 2 < (rankNumbers [9, 1, 1, 9]).length) ∧
    (((rankNumbers [9, 1, 1, 9]).get ⟨1, by decide⟩ <
        (rankNumbers [9, 1, 1, 9]).get ⟨2, by decide⟩ ↔
      (([9, 1, 1, 9] : List ℚ).get ⟨1, by decide⟩ <
          ([9, 1, 1, 9] : List ℚ).get ⟨2, by decide⟩ ∨
        (([9, 1, 1, 9] : List ℚ).get ⟨1, by decide⟩ =
            ([9, 1, 1, 9] : List ℚ).get ⟨2, by decide⟩ ∧ 1 < 2))) ∧
      ((rankNumbers [9, 1, 1, 9]).get ⟨1, by decide⟩ = 0 →
        ([9, 1, 1, 9] : List ℚ).get ⟨1, by decide⟩ ≤
          ([9, 1, 1, 9] : List ℚ).get ⟨2, by decide⟩)) := by
  refine ⟨⟨by decide, by decide, by decide, by decide⟩, ?_⟩
  exact rankNumbers_total_order [9, 1, 1, 9] 1 2
    (by decide) (by decide) (by decide) (by decide)

/-- C10. On any list of n numbers _rank_numbers returns a permutation of
the ranks 0 to n - 1: every rank in that range is written to exactly one
position. -/
theorem rankNumbers_perm_range (numbers : List ℚ) :
    (rankNumbers numbers).Perm (List.range numbers.length) := by
  have hlen := rankNumbers_length numbers
  have hsub : rankNumbers numbers ⊆ List.range numbers.length := by
    intro x hx
    obtain ⟨i, hi, hix⟩ := List.mem_iff_getElem.mp hx
    obtain ⟨j, hj, hsnd⟩ := exists_sorted_index numbers i (by omega)
    have := rankNumbers_get_eq numbers i hi j hj hsnd
    rw [List.get_eq_getElem] at this
    rw [List.mem_range, ← hix, this]
    rw [sortedPairs_length] at hj
    exact hj
  have hnd : (rankNumbers numbers).Nodup := by
    rw [List.nodup_iff_injective_get]
    intro ⟨i, hi⟩ ⟨k, hk⟩ hik
    obtain ⟨ji, hji, hsi⟩ := exists_sorted_index numbers i (by omega)
    obtain ⟨jk, hjk, hsk⟩ := exists_sorted_index numbers k (by omega)
    have hri := rankNumbers_get_eq numbers i hi ji hji hsi
    have hrk := rankNumbers_get_eq numbers k hk jk hjk hsk
    have hjj : ji = jk := by rw [← hri, ← hrk, hik]
    have : i = k := by
      rw [← hsi, ← hsk]
      exact congrArg (fun t => ((sortedPairs numbers).get t).2) (Fin.ext hjj)
    exact Fin.ext this
  have hsp : List.Subperm (rankNumbers numbers) (List.range numbers.length) :=
    hnd.subperm hsub
  exact hsp.perm_of_length_le (by rw [hlen, List.length_range])

/-- C3 amended: every successfully returned table of the embed.py engine is
globally sorted by the distance column in ascending order. -/
theorem getChunkQueryDistanceEmbed_sorted (embedOracle : String → Emb)
    (table : List ChunkRow) (query : String) (rows : List RankedRow)
    (h : (getChunkQueryDistanceEmbed embedOracle table query).1 = .ok rows) :
    (rows.map RankedRow.distance).Sorted (· ≤ ·) := by
  unfold getChunkQueryDistanceEmbed at h
  simp only [] at h
  split at h
  · simp at h
  · split at h
    · simp at h
    · rename_i pairs hpairs
      simp only [] at h
      have hrows : rows = sortByDistance (assembleRows table
          ((pairs.map Prod.fst).flatten) ((pairs.map Prod.snd).flatten)) := by
        simpa using h.symm
      subst hrows
      have hsorted : (sortByDistance (assembleRows table
          ((pairs.map Prod.fst).flatten) ((pairs.map Prod.snd).flatten))).Sorted distLe :=
        List.sorted_insertionSort distLe _
      rw [List.Sorted, List.pairwise_map]
      exact hsorted

/-- C3 amended witness: a concrete three-chunk, two-group table comes back
from the embed.py engine sorted by distance. -/
theorem getChunkQueryDistanceEmbed_sorted_witness :
    (getChunkQueryDistanceEmbed zeroOracle sampleTable "q").1 =
      .ok [⟨1, "a", 0, 1, 0, 0⟩, ⟨2, "c", 0, 1, 1, 0⟩, ⟨1, "b", 1, 2, 4, 1⟩] ∧
    (([⟨1, "a", 0, 1, 0, 0⟩, ⟨2, "c", 0, 1, 1, 0⟩, ⟨1, "b", 1, 2, 4, 1⟩] :
      List RankedRow).map RankedRow.distance).Sorted (· ≤ ·) := by
  refine ⟨by with_unfolding_all decide, ?_⟩
  exact getChunkQueryDistanceEmbed_sorted zeroOracle sampleTable "q"
    [⟨1, "a", 0, 1, 0, 0⟩, ⟨2, "c", 0, 1, 1, 0⟩, ⟨1, "b", 1, 2, 4, 1⟩]
    (by with_unfolding_all decide)

/-- C3 counterexample: the query.py engine returns its table without the
global sort, so on a two-group table the distance column comes back in
group-concatenation order 0, 4, 1, which is not ascending. -/
theorem query_result_not_sorted_cex :
    resultDistances
      ((getChunkQueryDistanceQuery sqEuclidean cosZero zeroOracle sampleTable "q").1) =
      [0, 4, 1] ∧
    ¬ (resultDistances
      ((getChunkQueryDistanceQuery sqEuclidean cosZero zeroOracle sampleTable "q").1)).Sorted
        (· ≤ ·) := by
  exact ⟨by with_unfolding_all decide, by with_unfolding_all decide⟩

theorem firstOccKeysFuel_congr : ∀ (f1 f2 : ℕ) (l : List ℕ), l.length ≤ f1 →
    l.length ≤ f2 → firstOccKeysFuel f1 l = firstOccKeysFuel f2 l := by
  intro f1
  induction f1 with
  | zero =>
      intro f2 l h1 h2
      cases l with
      | nil => cases f2 <;> rfl
      | cons k ks => simp at h1
  | succ f ih =>
      intro f2 l h1 h2
      cases l with
      | nil => cases f2 <;> rfl
      | cons k ks =>
          obtain ⟨g2, rfl⟩ : ∃ g2, f2 = g2 + 1 := by
            cases f2 with
            | zero => simp at h2
            | succ g2 => exact ⟨g2, rfl⟩
          show k :: firstOccKeysFuel f (ks.filter (fun x => x != k)) =
            k :: firstOccKeysFuel g2 (ks.filter (fun x => x != k))
          congr 1
          have hf := List.length_filter_le (fun x => x != k) ks
          simp only [List.length_cons] at h1 h2
          exact ih g2 _ (by omega) (by omega)

theorem firstOccKeys_cons (k : ℕ) (ks : List ℕ) :
    firstOccKeys (k :: ks) = k :: firstOccKeys (ks.filter (fun x => x != k)) := by
  show firstOccKeysFuel (k :: ks).length (k :: ks) = _
  rw [List.length_cons]
  show k :: firstOccKeysFuel ks.length (ks.filter (fun x => x != k)) = _
  unfold firstOccKeys
  congr 1
  exact firstOccKeysFuel_congr ks.length _ _ (List.length_filter_le _ _) le_rfl

theorem firstOccKeysFuel_subset : ∀ (fuel : ℕ) (l : List ℕ),
    firstOccKeysFuel fuel l ⊆ l := by
  intro fuel
  induction fuel with
  | zero =>
      intro l x hx
      cases l with
      | nil => cases hx
      | cons k ks => cases hx
  | succ f ih =>
      intro l x hx
      cases l with
      | nil => cases hx
      | cons k ks =>
          rcases List.mem_cons.mp hx with h | h
          · exact h ▸ List.mem_cons_self _ _
          · exact List.mem_cons_of_mem _ (List.mem_of_mem_filter (ih _ h))

theorem firstOccKeys_subset (l : List ℕ) : firstOccKeys l ⊆ l :=
  firstOccKeysFuel_subset l.length l

theorem contiguousRowsFuel_congr : ∀ (f1 f2 : ℕ) (l : List ChunkRow),
    l.length ≤ f1 → l.length ≤ f2 →
    contiguousRowsFuel f1 l = contiguousRowsFuel f2 l := by
  intro f1
  induction f1 with
  | zero =>
      intro f2 l h1 h2
      cases l with
      | nil => cases f2 <;> rfl
      | cons r rest => simp at h1
  | succ f ih =>
      intro f2 l h1 h2
      cases l with
      | nil => cases f2 <;> rfl
      | cons r rest =>
          obtain ⟨g2, rfl⟩ : ∃ g2, f2 = g2 + 1 := by
            cases f2 with
            | zero => simp at h2
            | succ g2 => exact ⟨g2, rfl⟩
          show ((rest.dropWhile (fun x => x.pmcid == r.pmcid)).all
              (fun x => x.pmcid != r.pmcid) &&
            contiguousRowsFuel f (rest.dropWhile (fun x => x.pmcid == r.pmcid))) =
            ((rest.dropWhile (fun x => x.pmcid == r.pmcid)).all
              (fun x => x.pmcid != r.pmcid) &&
            contiguousRowsFuel g2 (rest.dropWhile (fun x => x.pmcid == r.pmcid)))
          congr 1
          have hf := (List.dropWhile_sublist
            (l := rest) (fun x => x.pmcid == r.pmcid)).length_le
          simp only [List.length_cons] at h1 h2
          exact ih g2 _ (by omega) (by omega)

theorem contiguousRows_cons (r : ChunkRow) (rest : List ChunkRow) :
    contiguousRows (r :: rest) =
      ((rest.dropWhile (fun x => x.pmcid == r.pmcid)).all
        (fun x => x.pmcid != r.pmcid) &&
      contiguousRows (rest.dropWhile (fun x => x.pmcid == r.pmcid))) := by
  show contiguousRowsFuel (r :: rest).length (r :: rest) = _
  rw [List.length_cons]
  show ((rest.dropWhile (fun x => x.pmcid == r.pmcid)).all
      (fun x => x.pmcid != r.pmcid) &&
    contiguousRowsFuel rest.length (rest.dropWhile (fun x => x.pmcid == r.pmcid))) = _
  unfold contiguousRows
  congr 1
  exact contiguousRowsFuel_congr rest.length _ _
    ((List.dropWhile_sublist (l := rest) (fun x => x.pmcid == r.pmcid)).length_le)
    le_rfl

theorem allSome_eq_map (l : List (Option Emb)) (h : ∀ x ∈ l, x.isSome = true) :
    allSome l = some (l.map (fun o => o.getD [])) := by
  induction l with
  | nil => rfl
  | cons a rest ih =>
      cases a with
      | none => simpa using h none (List.mem_cons_self _ _)
      | some v =>
          simp [allSome, ih (fun x hx => h x (List.mem_cons_of_mem _ hx))]

theorem exceptSeq_ok_map {α β : Type} (l : List α) (f : α → β) :
    exceptSeq (l.map (fun g => Except.ok (f g))) = .ok (l.map f) := by
  induction l with
  | nil => rfl
  | cons a rest ih => simp [exceptSeq, ih, Except.map]

theorem assembleRows_append (t1 t2 : List ChunkRow) (d1 d2 : List ℚ)
    (k1 k2 : List ℕ) (h1 : d1.length = t1.length) (h2 : k1.length = t1.length) :
    assembleRows (t1 ++ t2) (d1 ++ d2) (k1 ++ k2) =
      assembleRows t1 d1 k1 ++ assembleRows t2 d2 k2 := by
  unfold assembleRows
  rw [List.zip_append (by rw [h1, h2]),
    List.zipWith_append _ _ _ _ _ (by rw [List.length_zip, h1, h2, Nat.min_self])]

theorem assembleRows_flatten (dfn : List ChunkRow → List ℚ)
    (rfn : List ChunkRow → List ℕ) (hd : ∀ g, (dfn g).length = g.length)
    (hr : ∀ g, (rfn g).length = g.length) :
    ∀ gs : List (List ChunkRow),
      assembleRows gs.flatten ((gs.map dfn).flatten) ((gs.map rfn).flatten) =
        (gs.map (fun g => assembleRows g (dfn g) (rfn g))).flatten := by
  intro gs
  induction gs with
  | nil => rfl
  | cons g rest ih =>
      simp only [List.map_cons, List.flatten_cons]
      rw [assembleRows_append _ _ _ _ _ _ (hd g) (hr g), ih]

theorem flatten_groupByPmcid_le : ∀ (n : ℕ) (table : List ChunkRow),
    table.length ≤ n → contiguousRows table = true →
    (groupByPmcid table).flatten = table := by
  intro n
  induction n with
  | zero =>
      intro table hlen _
      have htn : table = [] := List.length_eq_zero.mp (by omega)
      subst htn
      rfl
  | succ n ih =>
      intro table hlen hc
      cases table with
      | nil => rfl
      | cons r rest =>
          rw [contiguousRows_cons] at hc
          obtain ⟨hall, hcafter⟩ := (Bool.and_eq_true _ _).mp hc
          have hallp : ∀ x ∈ rest.dropWhile (fun x => x.pmcid == r.pmcid),
              x.pmcid ≠ r.pmcid := by
            intro x hx
            simpa using List.all_eq_true.mp hall x hx
          have hblock : ∀ x ∈ rest.takeWhile (fun x => x.pmcid == r.pmcid),
              x.pmcid = r.pmcid := by
            intro x hx
            simpa using List.mem_takeWhile_imp hx
          have hsplit : rest.takeWhile (fun x => x.pmcid == r.pmcid) ++
              rest.dropWhile (fun x => x.pmcid == r.pmcid) = rest :=
            List.takeWhile_append_dropWhile _ _
          have hkeys : firstOccKeys ((r :: rest).map ChunkRow.pmcid) =
              r.pmcid :: firstOccKeys
                ((rest.dropWhile (fun x => x.pmcid == r.pmcid)).map ChunkRow.pmcid) := by
            rw [List.map_cons, firstOccKeys_cons]
            congr 1
            conv_lhs => rw [← hsplit]
            rw [List.map_append, List.filter_append]
            have h1 : ((rest.takeWhile (fun x => x.pmcid == r.pmcid)).map
                ChunkRow.pmcid).filter (fun x => x != r.pmcid) = [] := by
              rw [List.filter_eq_nil_iff]
              intro a ha
              obtain ⟨x, hx, rfl⟩ := List.mem_map.mp ha
              simp [hblock x hx]
            have h2 : ((rest.dropWhile (fun x => x.pmcid == r.pmcid)).map
                ChunkRow.pmcid).filter (fun x => x != r.pmcid) =
                (rest.dropWhile (fun x => x.pmcid == r.pmcid)).map ChunkRow.pmcid := by
              rw [List.filter_eq_self]
              intro a ha
              obtain ⟨x, hx, rfl⟩ := List.mem_map.mp ha
              simpa using hallp x hx
            rw [h1, h2, List.nil_append]
          have hfirst : (r :: rest).filter (fun x => x.pmcid == r.pmcid) =
              r :: rest.takeWhile (fun x => x.pmcid == r.pmcid) := by
            rw [List.filter_cons]
            simp only [beq_self_eq_true, if_true]
            congr 1
            conv_lhs => rw [← hsplit]
            rw [List.filter_append]
            have hb : (rest.takeWhile (fun x => x.pmcid == r.pmcid)).filter
                (fun x => x.pmcid == r.pmcid) =
                rest.takeWhile (fun x => x.pmcid == r.pmcid) := by
              rw [List.filter_eq_self]
              intro a ha
              simpa using List.mem_takeWhile_imp ha
            have hd : (rest.dropWhile (fun x => x.pmcid == r.pmcid)).filter
                (fun x => x.pmcid == r.pmcid) = [] := by
              rw [List.filter_eq_nil_iff]
              intro a ha
              simpa using hallp a ha
            rw [hb, hd, List.append_nil]
          have hrest : ∀ k ∈ firstOccKeys
              ((rest.dropWhile (fun x => x.pmcid == r.pmcid)).map ChunkRow.pmcid),
              (r :: rest).filter (fun x => x.pmcid == k) =
              (rest.dropWhile (fun x => x.pmcid == r.pmcid)).filter
                (fun x => x.pmcid == k) := by
            intro k hk
            have hk2 := firstOccKeys_subset _ hk
            obtain ⟨y, hy, rfl⟩ := List.mem_map.mp hk2
            have hkne : y.pmcid ≠ r.pmcid := hallp y hy
            rw [List.filter_cons]
            have hcond : (r.pmcid == y.pmcid) = false := by
              simpa using Ne.symm hkne
            simp only [hcond, Bool.false_eq_true, if_false]
            conv_lhs => rw [← hsplit]
            rw [List.filter_append]
            have h1 : (rest.takeWhile (fun x => x.pmcid == r.pmcid)).filter
                (fun x => x.pmcid == y.pmcid) = [] := by
              rw [List.filter_eq_nil_iff]
              intro a ha
              simp [hblock a ha, Ne.symm hkne]
            rw [h1, List.nil_append]
          have hgroups : groupByPmcid (r :: rest) =
              (r :: rest.takeWhile (fun x => x.pmcid == r.pmcid)) ::
              groupByPmcid (rest.dropWhile (fun x => x.pmcid == r.pmcid)) := by
            unfold groupByPmcid
            rw [hkeys, List.map_cons, hfirst]
            congr 1
            exact List.map_congr_left hrest
          have hlen2 : (rest.dropWhile (fun x => x.pmcid == r.pmcid)).length ≤ n := by
            have := (List.dropWhile_sublist
              (l := rest) (fun x => x.pmcid == r.pmcid)).length_le
            simp only [List.length_cons] at hlen
            omega
          rw [hgroups, List.flatten_cons, ih _ hlen2 hcafter, List.cons_append, hsplit]

/-- Under the contiguity precondition the first-occurrence-ordered groups
concatenate back to the original table. -/
theorem flatten_groupByPmcid (table : List ChunkRow)
    (hc : contiguousRows table = true) :
    (groupByPmcid table).flatten = table :=
  flatten_groupByPmcid_le table.length table le_rfl hc

/-- C9. On a table whose rows are contiguous by pmcid (and whose embeddings
are all present), both engines build exactly the row-correct direct
assembly: every output row carries the distance of its own embedding and
the group-local rank at its own in-group position, so the positional column
assignment is aligned with the rows. The embed.py engine returns its sort
by distance; the query.py engine returns it as is. -/
theorem getChunkQueryDistance_row_aligned (embedOracle : String → Emb)
    (table : List ChunkRow) (query : String)
    (hc : contiguousRows table = true)
    (hv : ∀ r ∈ table, r.embedding.isSome = true)
    (hne : table ≠ []) :
    (getChunkQueryDistanceEmbed embedOracle table query).1 =
      .ok (sortByDistance (assembleDirect table (embedOracle query))) ∧
    ∀ cosd : Emb → Emb → ℚ,
      (getChunkQueryDistanceQuery sqEuclidean cosd embedOracle table query).1 =
        .ok (assembleDirect table (embedOracle query)) := by
  have hgsub : ∀ g ∈ groupByPmcid table, g ⊆ table := by
    intro g hg
    unfold groupByPmcid at hg
    obtain ⟨k, _, rfl⟩ := List.mem_map.mp hg
    intro x hx
    exact List.mem_of_mem_filter hx
  have hmapeq : (groupByPmcid table).map (fun g =>
      queryEmbeddingsEmbed (g.map ChunkRow.embedding) (embedOracle query)) =
      (groupByPmcid table).map (fun g => Except.ok
        (g.map (fun r => sqEuclidean (r.embedding.getD []) (embedOracle query)),
         rankNumbers (g.map (fun r =>
           sqEuclidean (r.embedding.getD []) (embedOracle query))))) := by
    apply List.map_congr_left
    intro g hg
    have hvg : ∀ x ∈ g.map ChunkRow.embedding, x.isSome = true := by
      intro x hx
      obtain ⟨rr, hrr, rfl⟩ := List.mem_map.mp hx
      exact hv rr (hgsub g hg hrr)
    unfold queryEmbeddingsEmbed
    rw [allSome_eq_map _ hvg]
    simp only [List.map_map]
    rfl
  have hseq : exceptSeq ((groupByPmcid table).map (fun g =>
      queryEmbeddingsEmbed (g.map ChunkRow.embedding) (embedOracle query))) =
      .ok ((groupByPmcid table).map (fun g =>
        (g.map (fun r => sqEuclidean (r.embedding.getD []) (embedOracle query)),
         rankNumbers (g.map (fun r =>
           sqEuclidean (r.embedding.getD []) (embedOracle query)))))) := by
    rw [hmapeq]
    exact exceptSeq_ok_map _ _
  have hgne : ¬ (groupByPmcid table).isEmpty = true := by
    rw [List.isEmpty_iff]
    obtain ⟨r, hr⟩ := List.exists_mem_of_ne_nil table hne
    exact groupByPmcid_ne_nil r table hr
  have h7 := assembleRows_flatten
    (fun g => g.map (fun r => sqEuclidean (r.embedding.getD []) (embedOracle query)))
    (fun g => rankNumbers (g.map (fun r =>
      sqEuclidean (r.embedding.getD []) (embedOracle query))))
    (fun g => List.length_map _ _)
    (fun g => by rw [rankNumbers_length, List.length_map])
    (groupByPmcid table)
  rw [flatten_groupByPmcid table hc] at h7
  constructor
  · unfold getChunkQueryDistanceEmbed
    simp only []
    rw [if_neg hgne, hseq]
    simp only [List.map_map]
    rw [show (Prod.fst ∘ fun g : List ChunkRow =>
        (g.map (fun r => sqEuclidean (r.embedding.getD []) (embedOracle query)),
         rankNumbers (g.map (fun r =>
           sqEuclidean (r.embedding.getD []) (embedOracle query))))) =
        (fun g : List ChunkRow =>
          g.map (fun r => sqEuclidean (r.embedding.getD []) (embedOracle query)))
      from rfl]
    rw [show (Prod.snd ∘ fun g : List ChunkRow =>
        (g.map (fun r => sqEuclidean (r.embedding.getD []) (embedOracle query)),
         rankNumbers (g.map (fun r =>
           sqEuclidean (r.embedding.getD []) (embedOracle query))))) =
        (fun g : List ChunkRow =>
          rankNumbers (g.map (fun r =>
            sqEuclidean (r.embedding.getD []) (embedOracle query))))
      from rfl]
    rw [h7]
    rfl
  · intro cosd
    have hmapeq2 : ((groupByPmcid table).map (fun g =>
        queryEmbeddingsQuery sqEuclidean cosd embedOracle (g.map ChunkRow.embedding)
          query "euclidean")).map Prod.fst =
        (groupByPmcid table).map (fun g => Except.ok
          (g.map (fun r => sqEuclidean (r.embedding.getD []) (embedOracle query)),
           rankNumbers (g.map (fun r =>
             sqEuclidean (r.embedding.getD []) (embedOracle query))))) := by
      rw [List.map_map]
      apply List.map_congr_left
      intro g hg
      have hvg : ∀ x ∈ g.map ChunkRow.embedding, x.isSome = true := by
        intro x hx
        obtain ⟨rr, hrr, rfl⟩ := List.mem_map.mp hx
        exact hv rr (hgsub g hg hrr)
      show (queryEmbeddingsQuery sqEuclidean cosd embedOracle
        (g.map ChunkRow.embedding) query "euclidean").1 = _
      unfold queryEmbeddingsQuery
      simp only [beq_self_eq_true, if_true]
      rw [allSome_eq_map _ hvg]
      simp only [List.map_map]
      rfl
    have hseq2 : exceptSeq (((groupByPmcid table).map (fun g =>
        queryEmbeddingsQuery sqEuclidean cosd embedOracle (g.map ChunkRow.embedding)
          query "euclidean")).map Prod.fst) =
        .ok ((groupByPmcid table).map (fun g =>
          (g.map (fun r => sqEuclidean (r.embedding.getD []) (embedOracle query)),
           rankNumbers (g.map (fun r =>
             sqEuclidean (r.embedding.getD []) (embedOracle query)))))) := by
      rw [hmapeq2]
      exact exceptSeq_ok_map _ _
    unfold getChunkQueryDistanceQuery
    simp only []
    rw [if_neg hgne, hseq2]
    simp only [List.map_map]
    rw [show (Prod.fst ∘ fun g : List ChunkRow =>
        (g.map (fun r => sqEuclidean (r.embedding.getD []) (embedOracle query)),
         rankNumbers (g.map (fun r =>
           sqEuclidean (r.embedding.getD []) (embedOracle query))))) =
        (fun g : List ChunkRow =>
          g.map (fun r => sqEuclidean (r.embedding.getD []) (embedOracle query)))
      from rfl]
    rw [show (Prod.snd ∘ fun g : List ChunkRow =>
        (g.map (fun r => sqEuclidean (r.embedding.getD []) (embedOracle query)),
         rankNumbers (g.map (fun r =>
           sqEuclidean (r.embedding.getD []) (embedOracle query))))) =
        (fun g : List ChunkRow =>
          rankNumbers (g.map (fun r =>
            sqEuclidean (r.embedding.getD []) (embedOracle query))))
      from rfl]
    rw [h7]
    rfl

/-- C9 witness: the three-row contiguous sample table is returned, by the
embed.py engine, exactly as the sorted direct assembly, and by the query.py
engine as the direct assembly itself. -/
theorem getChunkQueryDistance_row_aligned_witness :
    (contiguousRows sampleTable = true ∧
      (∀ r ∈ sampleTable, r.embedding.isSome = true) ∧ sampleTable ≠ []) ∧
    (getChunkQueryDistanceEmbed zeroOracle sampleTable "q").1 =
      .ok (sortByDistance (assembleDirect sampleTable (zeroOracle "q"))) ∧
    (getChunkQueryDistanceQuery sqEuclidean cosZero zeroOracle sampleTable "q").1 =
      .ok (assembleDirect sampleTable (zeroOracle "q")) := by
  refine ⟨⟨by decide, by decide, by decide⟩, ?_⟩
  have := getChunkQueryDistance_row_aligned zeroOracle sampleTable "q"
    (by decide) (by decide) (by decide)
  exact ⟨this.1, this.2 cosZero⟩

end Publang
